import Mathlib

/-!
Verification of the red-black tree insertion code in `src/thing.cpp`
(`RBinsert1`, the direction-generic do-while fixup) and `src/thing.c`
(`rb_insert`, the CLRS-style while-loop fixup).

The pointer structure of the C code is embedded as a zipper: the node
currently pointed to by `N`/`x` is a subtree, and the chain of parent
pointers above it is a `PPath`, a stack of parent frames each holding the
parent's colour, key and other child.  Rebuilding the whole tree from the
focused subtree and the path (`plug`) models following parent pointers up
to `T->root`; replacing a frame models a pointer update.  The current
node is passed as four fields (`left`, `colour`, `key`, `right`) because
in the source `N`/`x` is always a valid node, never NIL/NULL.
-/

/-- Node colour, `enum { red, black }` in the source. -/
inductive Color where
  | red : Color
  | black : Color
deriving DecidableEq, Repr

/-- Child side, `∈ { LEFT, RIGHT }` in `thing.cpp` (`byte dir`). -/
inductive Dir where
  | left : Dir
  | right : Dir
deriving DecidableEq, Repr

/-- The opposite side, `1 - dir` in `thing.cpp`. -/
def otherDir : Dir → Dir
  | .left => .right
  | .right => .left

/-- A red-black tree node (`struct RBnode` / `node`): key, colour and two
child links.  `nil` is an absent child; under the NIL-sentinel reading it
is the shared BLACK sentinel leaf (spec section 3, invariant 1). -/
inductive RBNode where
  | nil : RBNode
  | node : RBNode → Color → Int → RBNode → RBNode
deriving DecidableEq, Repr

/-- Colour of a node, with absent children considered BLACK
(the sentinel is BLACK; `thing.cpp` line `(U == NIL) || U->color == BLACK`). -/
def colorOf : RBNode → Color
  | .nil => .black
  | .node _ c _ _ => c

/-- Overwrite the colour field of a node (`n->color = c`).  Recolouring an
absent child is a no-op (never done by the source). -/
def paint : Color → RBNode → RBNode
  | _, .nil => .nil
  | c, .node l _ k r => .node l c k r

/-- Modelled from the spec: section 4.1 `rotateDir(tree, node, dir)`
(the source calls `RotateDir` / `RotateDirRoot` / `left_rotate` /
`right_rotate`, none of which appear in `src/`).  Rotating LEFT pivots the
right child up; rotating RIGHT pivots the left child up.  The contract
requires the pivot child to be non-absent; otherwise the rotation is a
no-op here (the fixup only ever rotates nodes whose pivot child is the
current node or the current parent, both real nodes).  Parent
back-reference updates are handled by the zipper (`plug`). -/
def rotateDir : Dir → RBNode → RBNode
  | .left, .node l c k (.node rl rc rk rr) => .node (.node l c k rl) rc rk rr
  | .right, .node (.node ll lc lk lr) c k r => .node ll lc lk (.node lr c k r)
  | _, t => t

/-- Rebuild a parent node from the side its focused child is on, the
child, the parent's colour and key, and the other child. -/
def mkNode : Dir → RBNode → Color → Int → RBNode → RBNode
  | .left, x, c, k, sib => .node x c k sib
  | .right, x, c, k, sib => .node sib c k x

/-- The chain of parent pointers above the current node.  `cons d c k sib
rest` is the frame for the immediate parent: the current node is its
`d`-side child, the parent has colour `c` and key `k`, its other child is
`sib`, and `rest` is the chain above it.  `root` means the current node
has no parent (`GetParent` yields NULL). -/
inductive PPath where
  | root : PPath
  | cons : Dir → Color → Int → RBNode → PPath → PPath
deriving DecidableEq, Repr

/-- Rebuild the whole tree from the focused subtree and its parent chain
(follow parent pointers to `T->root`). -/
def plug : RBNode → PPath → RBNode
  | x, .root => x
  | x, .cons d c k sib rest => plug (mkNode d x c k sib) rest

/-- Number of parent frames above the current node (its depth). -/
def pathLen : PPath → Nat
  | .root => 0
  | .cons _ _ _ _ rest => pathLen rest + 1

/-- The do-while fixup loop of `RBinsert1` (`src/thing.cpp`), with the
current node `N` given as fields `Nl/nc/nk/Nr` and the parent chain as
`p`.  The `PPath.root` case is both the `P == NULL` entry (N becomes the
root) and the loop exit `Case_I2`.  `Case_I3`: P black, return.
`Case_I6`: P red and root, blacken P.  `Case_I1` (P and U red): recolour
P, U black and G red, then iterate two tree levels higher with `N := G`.
`Case_I45` (P red, U black): if N is an inner grandchild, `RotateDir(P,
dir)` and re-designate (`Case_I4`), then recolour and rotate the
grandparent (`Case_I5`). -/
def insLoop : RBNode → Color → Int → RBNode → PPath → RBNode
  | Nl, nc, nk, Nr, .root => .node Nl nc nk Nr
  | Nl, nc, nk, Nr, .cons d pc pk psib rest =>
    if pc = .black then
      -- Case_I3 (P black): insertion complete
      plug (.node Nl nc nk Nr) (.cons d pc pk psib rest)
    else
      match rest with
      | .root =>
        -- Case_I6 (P is the root and red): P->color = BLACK
        plug (.node Nl nc nk Nr) (.cons d .black pk psib .root)
      | .cons d2 gc gk gsib grest =>
        -- G = GetParent(P) is the d2-side parent frame; U = GetUncle(N) = gsib
        if gsib = .nil ∨ colorOf gsib = .black then
          -- Case_I45 (P red && U black); dir := childDir(P) = d2
          plug
            (rotateDir (otherDir d2)
              (mkNode d2
                (paint .black
                  (if d = d2 then mkNode d (.node Nl nc nk Nr) pc pk psib
                   else rotateDir d2 (mkNode d (.node Nl nc nk Nr) pc pk psib)))
                .red gk gsib))
            grest
        else
          -- Case_I1 (P+U red): P,U black; G red; N := G; iterate on grest
          match d2 with
          | .left =>
            insLoop (mkNode d (.node Nl nc nk Nr) .black pk psib) .red gk
              (paint .black gsib) grest
          | .right =>
            insLoop (paint .black gsib) .red gk
              (mkNode d (.node Nl nc nk Nr) .black pk psib) grest

/-- Entry point `RBinsert1(T, P, N, dir)` of `src/thing.cpp`: the new node
`N` gets colour RED and NIL children; `p` encodes the parent `P`, the
side `dir` and the chain above them (`p = PPath.root` is the `P == NULL`
case, where N becomes the root).  `P->child[dir] = N` and the loop are
`insLoop`. -/
def RBinsert1 (p : PPath) (nk : Int) : RBNode :=
  insLoop .nil .red nk .nil p

/-- Run `insLoop` on a focused subtree given as one value (helper for
stating facts about `N := G` re-focusing). -/
def insLoopT : RBNode → PPath → RBNode
  | .nil, p => plug .nil p
  | .node l c k r, p => insLoop l c k r p

/-- Fuel-indexed version of the `RBinsert1` do-while loop: each recursive
step of the loop (only `Case_I1` loops) consumes one unit of fuel, and
`none` means the loop failed to finish within `fuel` iterations.  Used to
state termination bounds. -/
def insLoopF : Nat → RBNode → Color → Int → RBNode → PPath → Option RBNode
  | 0, _, _, _, _, _ => none
  | _ + 1, Nl, nc, nk, Nr, .root => some (.node Nl nc nk Nr)
  | fuel + 1, Nl, nc, nk, Nr, .cons d pc pk psib rest =>
    if pc = .black then
      some (plug (.node Nl nc nk Nr) (.cons d pc pk psib rest))
    else
      match rest with
      | .root => some (plug (.node Nl nc nk Nr) (.cons d .black pk psib .root))
      | .cons d2 gc gk gsib grest =>
        if gsib = .nil ∨ colorOf gsib = .black then
          some (plug
            (rotateDir (otherDir d2)
              (mkNode d2
                (paint .black
                  (if d = d2 then mkNode d (.node Nl nc nk Nr) pc pk psib
                   else rotateDir d2 (mkNode d (.node Nl nc nk Nr) pc pk psib)))
                .red gk gsib))
            grest)
        else
          match d2 with
          | .left =>
            insLoopF fuel (mkNode d (.node Nl nc nk Nr) .black pk psib) .red gk
              (paint .black gsib) grest
          | .right =>
            insLoopF fuel (paint .black gsib) .red gk
              (mkNode d (.node Nl nc nk Nr) .black pk psib) grest

/-- Modelled from the spec: section 4.2 `bstInsert` (the plain BST descent
`tree_insert` called by `thing.c`, and the caller computing `P`/`dir` for
`RBinsert1`, are not in `src/`).  Descends comparing the new key with each
visited key, left when strictly smaller, right otherwise, until an absent
child position is reached; returns the parent chain of that position. -/
def findSlot : RBNode → Int → PPath → PPath
  | .nil, _, acc => acc
  | .node l c j r, k, acc =>
    if k < j then findSlot l k (.cons .left c j r acc)
    else findSlot r k (.cons .right c j l acc)

/-- One whole insertion through `RBinsert1`: descend to the leaf position
(spec section 4.2), then run the fixup. -/
def insert1 (t : RBNode) (k : Int) : RBNode :=
  RBinsert1 (findSlot t k .root) k

/-- A finite sequence of insertions through `RBinsert1`, starting from the
empty tree. -/
def insertAllCpp (ks : List Int) : RBNode :=
  ks.foldl insert1 .nil

/-- The while-loop fixup of `rb_insert` (`src/thing.c`), under the
NIL-sentinel reading of absent children (`y->colour` of an absent uncle
reads BLACK; see `rbFixNullRep` for the other reading).  The loop runs
while `x != T->root && x->parent->colour == red`; inside it,
`x->parent->parent` is dereferenced with no NULL check, so a red parent
sitting at the root is undefined behaviour, modelled as `none`.  Case 1
recolours and moves `x` up two levels; cases 2 and 3 rotate; after case 3
the loop condition is false (x's new parent was just blackened), so the
loop exits.  The final `T->root->colour = black` is done by the caller
`rb_insert`. -/
def rbFix : RBNode → Color → Int → RBNode → PPath → Option RBNode
  | xl, xc, xk, xr, .root => some (.node xl xc xk xr)
  | xl, xc, xk, xr, .cons d pc pk psib rest =>
    if pc = .red then
      match rest with
      | .root => none  -- x->parent->parent is NULL and gets dereferenced
      | .cons d2 gc gk gsib grest =>
        match d2 with
        | .left =>
          -- x's parent is a left child; y := x->parent->parent->right
          if colorOf gsib = .red then
            -- case 1: recolour and move x up the tree
            rbFix (mkNode d (.node xl xc xk xr) .black pk psib) .red gk
              (paint .black gsib) grest
          else
            match d with
            | .right =>
              -- case 2 (x is a right child): x = x->parent; left_rotate(T, x);
              -- then case 3: recolour and right_rotate the grandparent.
              -- x's parent is now black, so the loop condition is false.
              some (plug (.node (.node psib pc pk xl) .black xk
                (.node xr .red gk gsib)) grest)
            | .left =>
              -- case 3 directly
              some (plug (.node (.node xl xc xk xr) .black pk
                (.node psib .red gk gsib)) grest)
        | .right =>
          -- the "if" part with right and left exchanged, as the comment
          -- in the source directs; y := x->parent->parent->left
          if colorOf gsib = .red then
            rbFix (paint .black gsib) .red gk
              (mkNode d (.node xl xc xk xr) .black pk psib) grest
          else
            match d with
            | .left =>
              some (plug (.node (.node gsib .red gk xl) .black xk
                (.node xr pc pk psib)) grest)
            | .right =>
              some (plug (.node (.node gsib .red gk psib) .black pk
                (.node xl xc xk xr)) grest)
    else
      -- loop condition false (parent not red): exit
      some (plug (.node xl xc xk xr) (.cons d pc pk psib rest))

/-- Reading the colour field of a child link when absence is a null
marker rather than a materialized sentinel: reading through an absent
link is undefined behaviour (`none`). -/
def colourReadNull : RBNode → Option Color
  | .nil => none
  | .node _ c _ _ => some c

/-- The while-loop fixup of `rb_insert` (`src/thing.c`) under the
null-marker reading of absent children: the uncle `y =
x->parent->parent->right` (resp. `->left`) may be the absence marker, and
`y->colour` then dereferences a null pointer (`none`).  Identical to
`rbFix` except for that read. -/
def rbFixNullRep : RBNode → Color → Int → RBNode → PPath → Option RBNode
  | xl, xc, xk, xr, .root => some (.node xl xc xk xr)
  | xl, xc, xk, xr, .cons d pc pk psib rest =>
    if pc = .red then
      match rest with
      | .root => none
      | .cons d2 gc gk gsib grest =>
        match d2 with
        | .left =>
          match colourReadNull gsib with
          | none => none  -- y->colour dereferences the absence marker
          | some yc =>
            if yc = .red then
              rbFixNullRep (mkNode d (.node xl xc xk xr) .black pk psib) .red gk
                (paint .black gsib) grest
            else
              match d with
              | .right =>
                some (plug (.node (.node psib pc pk xl) .black xk
                  (.node xr .red gk gsib)) grest)
              | .left =>
                some (plug (.node (.node xl xc xk xr) .black pk
                  (.node psib .red gk gsib)) grest)
        | .right =>
          match colourReadNull gsib with
          | none => none
          | some yc =>
            if yc = .red then
              rbFixNullRep (paint .black gsib) .red gk
                (mkNode d (.node xl xc xk xr) .black pk psib) grest
            else
              match d with
              | .left =>
                some (plug (.node (.node gsib .red gk xl) .black xk
                  (.node xr pc pk psib)) grest)
              | .right =>
                some (plug (.node (.node gsib .red gk psib) .black pk
                  (.node xl xc xk xr)) grest)
    else
      some (plug (.node xl xc xk xr) (.cons d pc pk psib rest))

/-- Whole `rb_insert(T, x)` of `src/thing.c`: `tree_insert` descends to
the leaf position (spec section 4.2), `x->colour = red`, the fixup loop
runs, and finally `T->root->colour = black` unconditionally. -/
def rb_insert (t : RBNode) (k : Int) : Option RBNode :=
  (rbFix .nil .red k .nil (findSlot t k .root)).map (paint .black)

/-- A finite sequence of insertions through `rb_insert`, starting from
the empty tree. -/
def insertAllC (ks : List Int) : Option RBNode :=
  ks.foldl (fun o k => o.bind (fun t => rb_insert t k)) (some .nil)

/-- The call state of `RBinsert1` when `P` is not NULL: the parent chain
`p` designates the slot `P->child[dir]`, whose pre-call content is `old`
(the pre-call tree is `plug old p`).  The body executes `P->child[dir] =
N` without reading the slot, so `old` is overwritten unconditionally and
never used. -/
def RBinsert1at (p : PPath) (old : RBNode) (nk : Int) : RBNode :=
  RBinsert1 p nk

/-- In-order key list of a tree. -/
def keys : RBNode → List Int
  | .nil => []
  | .node l _ k r => keys l ++ k :: keys r

/-- Number of nodes reachable from a tree root. -/
def size (t : RBNode) : Nat :=
  (keys t).length

/-- Key held at the root, if any. -/
def rootKeyOf : RBNode → Option Int
  | .nil => none
  | .node _ _ k _ => some k

/-- A tree with the colours erased: only keys and child links.  Two trees
with the same erasure have identical link topology. -/
inductive BareTree where
  | nil : BareTree
  | node : BareTree → Int → BareTree → BareTree
deriving DecidableEq, Repr

/-- Erase the colours of a tree. -/
def erase : RBNode → BareTree
  | .nil => .nil
  | .node l _ k r => .node (erase l) k (erase r)

/-- Lower-bound check for keys (`none` = unbounded). -/
def loOk : Option Int → Int → Bool
  | none, _ => true
  | some a, k => decide (a ≤ k)

/-- Upper-bound check for keys (`none` = unbounded). -/
def hiOk : Int → Option Int → Bool
  | _, none => true
  | k, some b => decide (k ≤ b)

/-- Invariant 5 of spec section 3 (BST ordering, non-strict on both
sides: left subtree keys ≤ the node's key ≤ right subtree keys), relative
to optional bounds. -/
def bst : RBNode → Option Int → Option Int → Bool
  | .nil, _, _ => true
  | .node l _ k r, lo, hi =>
    loOk lo k && hiOk k hi && bst l lo (some k) && bst r (some k) hi

/-- Number of BLACK nodes on the leftmost path from the root down to and
including an absent-leaf position (absent leaves are BLACK, invariant 1).
`bhOk` asserts this count is the same on every path. -/
def bh : RBNode → Nat
  | .nil => 1
  | .node l c _ _ => (if c = .black then 1 else 0) + bh l

/-- Invariant 4 of spec section 3: every path from a node to a descendant
absent-leaf position passes through the same number of BLACK nodes. -/
def bhOk : RBNode → Bool
  | .nil => true
  | .node l _ _ r => bhOk l && bhOk r && (bh l == bh r)

/-- Invariant 3 of spec section 3: no RED node has a RED child. -/
def redOk : RBNode → Bool
  | .nil => true
  | .node l c _ r =>
    redOk l && redOk r &&
      (!(c == .red) || (colorOf l == .black && colorOf r == .black))

/-- Invariants 1, 3, 4 and 5 of spec section 3 (all but root-is-BLACK;
invariant 1 holds by construction of `RBNode` and `colorOf`). -/
def rbValid1345 (t : RBNode) : Bool :=
  redOk t && bhOk t && bst t none none

/-- Modelled from the spec: section 6 `validate()` (not present in
`src/`), the diagnostic checking all five invariants of spec section 3:
well-formed colours (by construction), BLACK root, no RED node with a RED
child, equal black-height everywhere, and BST ordering. -/
def validate (t : RBNode) : Bool :=
  (colorOf t == .black) && rbValid1345 t

/-- Validation of an optional tree (undefined behaviour counts as
failure). -/
def validO : Option RBNode → Bool
  | none => false
  | some t => validate t

/-- Bounds delimiting the keys that may sit in the hole of a path. -/
def bounds : PPath → Option Int × Option Int
  | .root => (none, none)
  | .cons .left _ k _ rest => ((bounds rest).1, some k)
  | .cons .right _ k _ rest => (some k, (bounds rest).2)

/-- Colour of the hole's immediate parent (BLACK when there is none). -/
def upColor : PPath → Color
  | .root => .black
  | .cons _ c _ _ _ => c

/-- Colour of the topmost node of the path, i.e. of `T->root` when the
path is non-empty (BLACK for the empty path). -/
def topColor : PPath → Color
  | .root => .black
  | .cons _ c _ _ .root => c
  | .cons _ _ _ _ (.cons d2 c2 k2 s2 r2) => topColor (.cons d2 c2 k2 s2 r2)

/-- BST ordering of a path: every frame's key fits the bounds above it
and every sibling subtree is ordered within its own slot. -/
def pathBst : PPath → Bool
  | .root => true
  | .cons d _ k sib rest =>
    loOk (bounds rest).1 k && hiOk k (bounds rest).2 && pathBst rest &&
      (match d with
       | .left => bst sib (some k) (bounds rest).2
       | .right => bst sib (bounds rest).1 (some k))

/-- Black-height consistency of a path whose hole is to be filled by a
subtree of black-height `n`. -/
def pathBhOk : PPath → Nat → Bool
  | .root, _ => true
  | .cons _ c _ sib rest, n =>
    bhOk sib && (bh sib == n) &&
      pathBhOk rest (n + (if c = .black then 1 else 0))

/-- Red-condition of a path: sibling subtrees have no red-red violation,
and every RED frame has a BLACK sibling child and a BLACK parent. -/
def pathRedOk : PPath → Bool
  | .root => true
  | .cons _ c _ sib rest =>
    redOk sib &&
      (!(c == .red) || (colorOf sib == .black && upColor rest == .black)) &&
      pathRedOk rest

/-- Key count of a path (number of nodes it contributes). -/
def pathKeyLen : PPath → Nat
  | .root => 0
  | .cons _ _ _ sib rest => 1 + (keys sib).length + pathKeyLen rest

/-! ## Basic lemmas about colours, painting and bounds -/

theorem color_eq_red_of_ne_black {c : Color} (h : c ≠ .black) : c = .red := by
  cases c
  · rfl
  · exact absurd rfl h

theorem color_eq_black_of_ne_red {c : Color} (h : c ≠ .red) : c = .black := by
  cases c
  · exact absurd rfl h
  · rfl

theorem colorOf_paint_black (t : RBNode) : colorOf (paint .black t) = .black := by
  cases t <;> rfl

theorem bst_paint (c : Color) (t : RBNode) (lo hi : Option Int) :
    bst (paint c t) lo hi = bst t lo hi := by
  cases t <;> rfl

theorem bhOk_paint (c : Color) (t : RBNode) : bhOk (paint c t) = bhOk t := by
  cases t <;> rfl

theorem keys_paint (c : Color) (t : RBNode) : keys (paint c t) = keys t := by
  cases t <;> rfl

theorem erase_paint (c : Color) (t : RBNode) : erase (paint c t) = erase t := by
  cases t <;> rfl

theorem redOk_paint_black {t : RBNode} (h : redOk t = true) :
    redOk (paint .black t) = true := by
  cases t with
  | nil => rfl
  | node l c k r =>
    simp only [redOk, Bool.and_eq_true, Bool.or_eq_true, beq_iff_eq] at h ⊢
    exact ⟨⟨h.1.1, h.1.2⟩, Or.inl (by simp)⟩

theorem bh_paint_black_of_red {t : RBNode} (h : colorOf t = .red) :
    bh (paint .black t) = bh t + 1 := by
  cases t with
  | nil => simp [colorOf] at h
  | node l c k r =>
    simp only [colorOf] at h
    subst h
    simp [paint, bh]
    omega

theorem loOk_mono {lo : Option Int} {j k : Int} (h : loOk lo j = true) (hjk : j ≤ k) :
    loOk lo k = true := by
  cases lo with
  | none => rfl
  | some a =>
    simp only [loOk, decide_eq_true_eq] at h ⊢
    omega

theorem hiOk_mono {hi : Option Int} {j k : Int} (h : hiOk j hi = true) (hkj : k ≤ j) :
    hiOk k hi = true := by
  cases hi with
  | none => rfl
  | some b =>
    simp only [hiOk, decide_eq_true_eq] at h ⊢
    omega

/-! ## Filling the hole of a path (plug) preserves the invariants -/

theorem plug_bst (p : PPath) (x : RBNode) (hp : pathBst p = true)
    (hx : bst x (bounds p).1 (bounds p).2 = true) :
    bst (plug x p) none none = true := by
  induction p generalizing x with
  | root => simpa [bounds] using hx
  | cons d c k sib rest ih =>
    simp only [pathBst, Bool.and_eq_true] at hp
    obtain ⟨⟨⟨hlo, hhi⟩, hrest⟩, hsib⟩ := hp
    cases d with
    | left =>
      refine ih (mkNode .left x c k sib) hrest ?_
      simp only [mkNode, bst, Bool.and_eq_true]
      exact ⟨⟨⟨hlo, hhi⟩, by simpa [bounds] using hx⟩, hsib⟩
    | right =>
      refine ih (mkNode .right x c k sib) hrest ?_
      simp only [mkNode, bst, Bool.and_eq_true]
      exact ⟨⟨⟨hlo, hhi⟩, hsib⟩, by simpa [bounds] using hx⟩

theorem plug_bh (p : PPath) (x : RBNode) (n : Nat) (hp : pathBhOk p n = true)
    (hx : bhOk x = true) (hn : bh x = n) :
    bhOk (plug x p) = true := by
  induction p generalizing x n with
  | root => simpa using hx
  | cons d c k sib rest ih =>
    simp only [pathBhOk, Bool.and_eq_true, beq_iff_eq] at hp
    obtain ⟨⟨hsib, hbhs⟩, hrest⟩ := hp
    cases d with
    | left =>
      refine ih (mkNode .left x c k sib) (n + (if c = .black then 1 else 0)) hrest ?_ ?_
      · simp only [mkNode, bhOk, Bool.and_eq_true, beq_iff_eq]
        exact ⟨⟨hx, hsib⟩, by omega⟩
      · simp only [mkNode, bh]
        omega
    | right =>
      refine ih (mkNode .right x c k sib) (n + (if c = .black then 1 else 0)) hrest ?_ ?_
      · simp only [mkNode, bhOk, Bool.and_eq_true, beq_iff_eq]
        exact ⟨⟨hsib, hx⟩, by omega⟩
      · simp only [mkNode, bh]
        omega

theorem colorOf_mkNode (d : Dir) (x : RBNode) (c : Color) (k : Int) (sib : RBNode) :
    colorOf (mkNode d x c k sib) = c := by
  cases d <;> rfl

theorem plug_red (p : PPath) (x : RBNode) (hp : pathRedOk p = true)
    (hx : redOk x = true) (hup : upColor p = .red → colorOf x = .black) :
    redOk (plug x p) = true := by
  induction p generalizing x with
  | root => simpa using hx
  | cons d c k sib rest ih =>
    simp only [pathRedOk, Bool.and_eq_true, Bool.or_eq_true, Bool.not_eq_true',
      beq_iff_eq, beq_eq_false_iff_ne] at hp
    obtain ⟨⟨hsib, hcond⟩, hrest⟩ := hp
    simp only [upColor] at hup
    have hchild : c = .red → colorOf x = .black ∧ colorOf sib = .black := by
      intro hc
      rcases hcond with h | h
      · exact absurd hc h
      · exact ⟨hup hc, h.1⟩
    have hnode : redOk (mkNode d x c k sib) = true := by
      cases d with
      | left =>
        simp only [mkNode, redOk, Bool.and_eq_true, Bool.or_eq_true, Bool.not_eq_true',
          beq_iff_eq, beq_eq_false_iff_ne]
        rcases Decidable.em (c = .red) with hc | hc
        · exact ⟨⟨hx, hsib⟩, Or.inr ⟨(hchild hc).1, (hchild hc).2⟩⟩
        · exact ⟨⟨hx, hsib⟩, Or.inl hc⟩
      | right =>
        simp only [mkNode, redOk, Bool.and_eq_true, Bool.or_eq_true, Bool.not_eq_true',
          beq_iff_eq, beq_eq_false_iff_ne]
        rcases Decidable.em (c = .red) with hc | hc
        · exact ⟨⟨hsib, hx⟩, Or.inr ⟨(hchild hc).2, (hchild hc).1⟩⟩
        · exact ⟨⟨hsib, hx⟩, Or.inl hc⟩
    refine ih (mkNode d x c k sib) hrest hnode ?_
    intro hu
    rw [colorOf_mkNode]
    rcases hcond with h | h
    · exact color_eq_black_of_ne_red h
    · rw [h.2] at hu
      exact absurd hu (by simp)

/-! ## Decomposition helpers -/

theorem loOk_some {a k : Int} : loOk (some a) k = true ↔ a ≤ k := by
  simp [loOk]

theorem hiOk_some {k b : Int} : hiOk k (some b) = true ↔ k ≤ b := by
  simp [hiOk]

theorem bst_node_iff {l r : RBNode} {c : Color} {k : Int} {lo hi : Option Int} :
    bst (.node l c k r) lo hi = true ↔
      (loOk lo k = true ∧ hiOk k hi = true ∧
       bst l lo (some k) = true ∧ bst r (some k) hi = true) := by
  simp [bst, Bool.and_eq_true, and_assoc]

theorem redOk_node_iff {l r : RBNode} {c : Color} {k : Int} :
    redOk (.node l c k r) = true ↔
      (redOk l = true ∧ redOk r = true ∧
       (c = .red → colorOf l = .black ∧ colorOf r = .black)) := by
  cases c <;> simp [redOk, Bool.and_eq_true, and_assoc]

theorem bhOk_node_iff {l r : RBNode} {c : Color} {k : Int} :
    bhOk (.node l c k r) = true ↔
      (bhOk l = true ∧ bhOk r = true ∧ bh l = bh r) := by
  simp [bhOk, Bool.and_eq_true, and_assoc]

theorem bh_node (l : RBNode) (c : Color) (k : Int) (r : RBNode) :
    bh (.node l c k r) = (if c = .black then 1 else 0) + bh l := rfl

theorem redOk_mkNode_black (d : Dir) (x : RBNode) (k : Int) (sib : RBNode)
    (hx : redOk x = true) (hs : redOk sib = true) :
    redOk (mkNode d x .black k sib) = true := by
  cases d <;> simp [mkNode, redOk_node_iff, hx, hs]

theorem bhOk_mkNode (d : Dir) (x : RBNode) (c : Color) (k : Int) (sib : RBNode)
    (hx : bhOk x = true) (hs : bhOk sib = true) (hb : bh x = bh sib) :
    bhOk (mkNode d x c k sib) = true := by
  cases d <;> simp [mkNode, bhOk_node_iff, hx, hs, hb]

theorem bh_mkNode (d : Dir) (x : RBNode) (c : Color) (k : Int) (sib : RBNode)
    (hb : bh x = bh sib) :
    bh (mkNode d x c k sib) = (if c = .black then 1 else 0) + bh x := by
  cases d <;> simp [mkNode, bh_node, hb]

/-! ## Case equations for the RBinsert1 do-while loop -/

theorem insLoop_eq_I3 (Nl : RBNode) (nc : Color) (nk : Int) (Nr : RBNode)
    (d : Dir) (pk : Int) (psib : RBNode) (rest : PPath) :
    insLoop Nl nc nk Nr (.cons d .black pk psib rest)
      = plug (.node Nl nc nk Nr) (.cons d .black pk psib rest) := by
  rw [insLoop.eq_def]
  simp

theorem insLoop_eq_I6 (Nl : RBNode) (nc : Color) (nk : Int) (Nr : RBNode)
    (d : Dir) (pk : Int) (psib : RBNode) :
    insLoop Nl nc nk Nr (.cons d .red pk psib .root)
      = plug (.node Nl nc nk Nr) (.cons d .black pk psib .root) := by
  rw [insLoop.eq_def]
  simp

theorem insLoop_eq_I45 (Nl : RBNode) (nc : Color) (nk : Int) (Nr : RBNode)
    (d : Dir) (pk : Int) (psib : RBNode) (d2 : Dir) (gc : Color) (gk : Int)
    (gsib : RBNode) (grest : PPath)
    (hun : gsib = .nil ∨ colorOf gsib = .black) :
    insLoop Nl nc nk Nr (.cons d .red pk psib (.cons d2 gc gk gsib grest))
      = plug
          (rotateDir (otherDir d2)
            (mkNode d2
              (paint .black
                (if d = d2 then mkNode d (.node Nl nc nk Nr) .red pk psib
                 else rotateDir d2 (mkNode d (.node Nl nc nk Nr) .red pk psib)))
              .red gk gsib))
          grest := by
  rw [insLoop.eq_def]
  simp only [reduceCtorEq, reduceIte]
  rw [if_pos hun]

theorem insLoop_eq_I1_left (Nl : RBNode) (nc : Color) (nk : Int) (Nr : RBNode)
    (d : Dir) (pk : Int) (psib : RBNode) (gc : Color) (gk : Int)
    (gsib : RBNode) (grest : PPath)
    (hun : ¬ (gsib = .nil ∨ colorOf gsib = .black)) :
    insLoop Nl nc nk Nr (.cons d .red pk psib (.cons .left gc gk gsib grest))
      = insLoop (mkNode d (.node Nl nc nk Nr) .black pk psib) .red gk
          (paint .black gsib) grest := by
  rw [insLoop.eq_def]
  simp only [reduceCtorEq, reduceIte]
  rw [if_neg hun]

theorem insLoop_eq_I1_right (Nl : RBNode) (nc : Color) (nk : Int) (Nr : RBNode)
    (d : Dir) (pk : Int) (psib : RBNode) (gc : Color) (gk : Int)
    (gsib : RBNode) (grest : PPath)
    (hun : ¬ (gsib = .nil ∨ colorOf gsib = .black)) :
    insLoop Nl nc nk Nr (.cons d .red pk psib (.cons .right gc gk gsib grest))
      = insLoop (paint .black gsib) .red gk
          (mkNode d (.node Nl nc nk Nr) .black pk psib) grest := by
  rw [insLoop.eq_def]
  simp only [reduceCtorEq, reduceIte]
  rw [if_neg hun]

theorem bh_red_node (l : RBNode) (k : Int) (r : RBNode) :
    bh (.node l .red k r) = bh l := by
  simp [bh]

theorem insLoop_ok : ∀ (n : Nat) (p : PPath) (Nl Nr : RBNode) (nk : Int),
    pathLen p ≤ n →
    redOk (.node Nl .red nk Nr) = true →
    bhOk (.node Nl .red nk Nr) = true →
    bst (.node Nl .red nk Nr) (bounds p).1 (bounds p).2 = true →
    pathBst p = true →
    pathBhOk p (bh (.node Nl .red nk Nr)) = true →
    pathRedOk p = true →
    redOk (insLoop Nl .red nk Nr p) = true ∧
    bhOk (insLoop Nl .red nk Nr p) = true ∧
    bst (insLoop Nl .red nk Nr p) none none = true := by
  intro n
  induction n with
  | zero =>
    intro p Nl Nr nk hlen hr hb hbst hps hpb hpr
    cases p with
    | root => exact ⟨hr, hb, by simpa [bounds] using hbst⟩
    | cons d pc pk psib rest => simp [pathLen] at hlen
  | succ n ih =>
    intro p Nl Nr nk hlen hr hb hbst hps hpb hpr
    cases p with
    | root => exact ⟨hr, hb, by simpa [bounds] using hbst⟩
    | cons d pc pk psib rest =>
      rcases Decidable.em (pc = .black) with hpc | hpc
      · subst hpc
        rw [insLoop_eq_I3]
        exact ⟨plug_red _ _ hpr hr (fun h => by simp [upColor] at h),
               plug_bh _ _ _ hpb hb rfl,
               plug_bst _ _ hps hbst⟩
      · have hpc2 : pc = .red := color_eq_red_of_ne_black hpc
        subst hpc2
        cases rest with
        | root =>
          rw [insLoop_eq_I6]
          cases d with
          | left =>
            simp [pathBst, pathBhOk, pathRedOk, bounds, upColor, bh_red_node,
              loOk_some, hiOk_some, and_assoc] at hps hpb hpr
            simp only [bounds] at hbst
            refine ⟨plug_red _ _ ?_ hr (fun h => by simp [upColor] at h),
                    plug_bh _ _ (bh Nl) ?_ hb (bh_red_node _ _ _),
                    plug_bst _ _ ?_ ?_⟩
            · simp [pathRedOk, upColor]
              exact hpr.1
            · simp [pathBhOk]
              exact ⟨hpb.1, hpb.2⟩
            · simp [pathBst, bounds, and_assoc]
              exact hps
            · simpa [bounds] using hbst
          | right =>
            simp [pathBst, pathBhOk, pathRedOk, bounds, upColor, bh_red_node,
              loOk_some, hiOk_some, and_assoc] at hps hpb hpr
            simp only [bounds] at hbst
            refine ⟨plug_red _ _ ?_ hr (fun h => by simp [upColor] at h),
                    plug_bh _ _ (bh Nl) ?_ hb (bh_red_node _ _ _),
                    plug_bst _ _ ?_ ?_⟩
            · simp [pathRedOk, upColor]
              exact hpr.1
            · simp [pathBhOk]
              exact ⟨hpb.1, hpb.2⟩
            · simp [pathBst, bounds, and_assoc]
              exact hps
            · simpa [bounds] using hbst
        | cons d2 gc gk gsib grest =>
          obtain ⟨hrl, hrr, hcc⟩ := redOk_node_iff.mp hr
          have hcl := (hcc rfl).1
          have hcr := (hcc rfl).2
          obtain ⟨hbl, hbr, hblr⟩ := bhOk_node_iff.mp hb
          have hlen2 : pathLen grest ≤ n := by
            simp [pathLen] at hlen
            omega
          rcases Decidable.em (gsib = RBNode.nil ∨ colorOf gsib = Color.black)
            with hun | hun
          · -- Case_I45 (P red, U black)
            have hgsB : colorOf gsib = .black := by
              rcases hun with h | h
              · rw [h]
                rfl
              · exact h
            cases d2 with
            | left =>
              cases d with
              | left =>
                rw [insLoop_eq_I45 Nl .red nk Nr .left pk psib .left gc gk gsib grest hun]
                simp only [otherDir, mkNode, paint, rotateDir, reduceIte]
                simp only [bounds] at hbst
                simp [pathBst, bounds, loOk_some, hiOk_some, and_assoc] at hps
                obtain ⟨hlopk, hpkgk, hlogk, hhigk, hpsg, hgs, hpsib⟩ := hps
                simp [pathBhOk, bh_red_node, and_assoc, reduceIte] at hpb
                obtain ⟨hbhpsib, hbhpsibeq, hbhgsib, hbhgsibeq, hpbg⟩ := hpb
                simp [pathRedOk, upColor, and_assoc] at hpr
                obtain ⟨hrpsib, hpsibB, hgc, hrgsib, hgccond, hprg⟩ := hpr
                subst hgc
                simp only [reduceIte] at hpbg
                have hRred : redOk (.node (.node Nl .red nk Nr) .black pk
                    (.node psib .red gk gsib)) = true := by
                  rw [redOk_node_iff]
                  exact ⟨hr, redOk_node_iff.mpr ⟨hrpsib, hrgsib, fun _ => ⟨hpsibB, hgsB⟩⟩,
                         fun h => absurd h (by decide)⟩
                have hRbh : bhOk (.node (.node Nl .red nk Nr) .black pk
                    (.node psib .red gk gsib)) = true := by
                  rw [bhOk_node_iff]
                  refine ⟨hb, bhOk_node_iff.mpr ⟨hbhpsib, hbhgsib, by omega⟩, ?_⟩
                  simp [bh_red_node]
                  omega
                have hRbheq : bh (.node (.node Nl .red nk Nr) .black pk
                    (.node psib .red gk gsib)) = bh Nl + 1 := by
                  simp [bh]
                  omega
                have hRbst : bst (.node (.node Nl .red nk Nr) .black pk
                    (.node psib .red gk gsib)) (bounds grest).1 (bounds grest).2 = true := by
                  rw [bst_node_iff]
                  exact ⟨hlopk, hiOk_mono hhigk hpkgk, hbst,
                         bst_node_iff.mpr ⟨loOk_some.mpr hpkgk, hhigk, hpsib, hgs⟩⟩
                exact ⟨plug_red grest _ hprg hRred (fun _ => rfl),
                       plug_bh grest _ (bh Nl + 1) hpbg hRbh hRbheq,
                       plug_bst grest _ hpsg hRbst⟩
              | right =>
                rw [insLoop_eq_I45 Nl .red nk Nr .right pk psib .left gc gk gsib grest hun]
                simp only [otherDir, mkNode, paint, rotateDir, reduceIte]
                simp only [bounds] at hbst
                rw [bst_node_iff] at hbst
                obtain ⟨hpknk0, hnkgk0, hNl, hNr⟩ := hbst
                have hpknk : pk ≤ nk := loOk_some.mp hpknk0
                have hnkgk : nk ≤ gk := hiOk_some.mp hnkgk0
                simp [pathBst, bounds, loOk_some, hiOk_some, and_assoc] at hps
                obtain ⟨hlopk, hpkgk, hlogk, hhigk, hpsg, hgs, hpsib⟩ := hps
                simp [pathBhOk, bh_red_node, and_assoc, reduceIte] at hpb
                obtain ⟨hbhpsib, hbhpsibeq, hbhgsib, hbhgsibeq, hpbg⟩ := hpb
                simp [pathRedOk, upColor, and_assoc] at hpr
                obtain ⟨hrpsib, hpsibB, hgc, hrgsib, hgccond, hprg⟩ := hpr
                subst hgc
                simp only [reduceIte] at hpbg
                have hRred : redOk (.node (.node psib .red pk Nl) .black nk
                    (.node Nr .red gk gsib)) = true := by
                  rw [redOk_node_iff]
                  exact ⟨redOk_node_iff.mpr ⟨hrpsib, hrl, fun _ => ⟨hpsibB, hcl⟩⟩,
                         redOk_node_iff.mpr ⟨hrr, hrgsib, fun _ => ⟨hcr, hgsB⟩⟩,
                         fun h => absurd h (by decide)⟩
                have hRbh : bhOk (.node (.node psib .red pk Nl) .black nk
                    (.node Nr .red gk gsib)) = true := by
                  rw [bhOk_node_iff]
                  refine ⟨bhOk_node_iff.mpr ⟨hbhpsib, hbl, by omega⟩,
                          bhOk_node_iff.mpr ⟨hbr, hbhgsib, by omega⟩, ?_⟩
                  simp [bh_red_node]
                  omega
                have hRbheq : bh (.node (.node psib .red pk Nl) .black nk
                    (.node Nr .red gk gsib)) = bh Nl + 1 := by
                  simp [bh]
                  omega
                have hRbst : bst (.node (.node psib .red pk Nl) .black nk
                    (.node Nr .red gk gsib)) (bounds grest).1 (bounds grest).2 = true := by
                  rw [bst_node_iff]
                  exact ⟨loOk_mono hlopk hpknk, hiOk_mono hhigk hnkgk,
                         bst_node_iff.mpr ⟨hlopk, hiOk_some.mpr hpknk, hpsib, hNl⟩,
                         bst_node_iff.mpr ⟨loOk_some.mpr hnkgk, hhigk, hNr, hgs⟩⟩
                exact ⟨plug_red grest _ hprg hRred (fun _ => rfl),
                       plug_bh grest _ (bh Nl + 1) hpbg hRbh hRbheq,
                       plug_bst grest _ hpsg hRbst⟩
            | right =>
              cases d with
              | right =>
                rw [insLoop_eq_I45 Nl .red nk Nr .right pk psib .right gc gk gsib grest hun]
                simp only [otherDir, mkNode, paint, rotateDir, reduceIte]
                simp only [bounds] at hbst
                simp [pathBst, bounds, loOk_some, hiOk_some, and_assoc] at hps
                obtain ⟨hgkpk, hhipk, hlogk, hhigk, hpsg, hgs, hpsib⟩ := hps
                simp [pathBhOk, bh_red_node, and_assoc, reduceIte] at hpb
                obtain ⟨hbhpsib, hbhpsibeq, hbhgsib, hbhgsibeq, hpbg⟩ := hpb
                simp [pathRedOk, upColor, and_assoc] at hpr
                obtain ⟨hrpsib, hpsibB, hgc, hrgsib, hgccond, hprg⟩ := hpr
                subst hgc
                simp only [reduceIte] at hpbg
                have hRred : redOk (.node (.node gsib .red gk psib) .black pk
                    (.node Nl .red nk Nr)) = true := by
                  rw [redOk_node_iff]
                  exact ⟨redOk_node_iff.mpr ⟨hrgsib, hrpsib, fun _ => ⟨hgsB, hpsibB⟩⟩,
                         hr, fun h => absurd h (by decide)⟩
                have hRbh : bhOk (.node (.node gsib .red gk psib) .black pk
                    (.node Nl .red nk Nr)) = true := by
                  rw [bhOk_node_iff]
                  refine ⟨bhOk_node_iff.mpr ⟨hbhgsib, hbhpsib, by omega⟩, hb, ?_⟩
                  simp [bh_red_node]
                  omega
                have hRbheq : bh (.node (.node gsib .red gk psib) .black pk
                    (.node Nl .red nk Nr)) = bh Nl + 1 := by
                  simp [bh]
                  omega
                have hRbst : bst (.node (.node gsib .red gk psib) .black pk
                    (.node Nl .red nk Nr)) (bounds grest).1 (bounds grest).2 = true := by
                  rw [bst_node_iff]
                  exact ⟨loOk_mono hlogk hgkpk, hhipk,
                         bst_node_iff.mpr ⟨hlogk, hiOk_some.mpr hgkpk, hgs, hpsib⟩,
                         hbst⟩
                exact ⟨plug_red grest _ hprg hRred (fun _ => rfl),
                       plug_bh grest _ (bh Nl + 1) hpbg hRbh hRbheq,
                       plug_bst grest _ hpsg hRbst⟩
              | left =>
                rw [insLoop_eq_I45 Nl .red nk Nr .left pk psib .right gc gk gsib grest hun]
                simp only [otherDir, mkNode, paint, rotateDir, reduceIte]
                simp only [bounds] at hbst
                rw [bst_node_iff] at hbst
                obtain ⟨hgknk0, hnkpk0, hNl, hNr⟩ := hbst
                have hgknk : gk ≤ nk := loOk_some.mp hgknk0
                have hnkpk : nk ≤ pk := hiOk_some.mp hnkpk0
                simp [pathBst, bounds, loOk_some, hiOk_some, and_assoc] at hps
                obtain ⟨hgkpk, hhipk, hlogk, hhigk, hpsg, hgs, hpsib⟩ := hps
                simp [pathBhOk, bh_red_node, and_assoc, reduceIte] at hpb
                obtain ⟨hbhpsib, hbhpsibeq, hbhgsib, hbhgsibeq, hpbg⟩ := hpb
                simp [pathRedOk, upColor, and_assoc] at hpr
                obtain ⟨hrpsib, hpsibB, hgc, hrgsib, hgccond, hprg⟩ := hpr
                subst hgc
                simp only [reduceIte] at hpbg
                have hRred : redOk (.node (.node gsib .red gk Nl) .black nk
                    (.node Nr .red pk psib)) = true := by
                  rw [redOk_node_iff]
                  exact ⟨redOk_node_iff.mpr ⟨hrgsib, hrl, fun _ => ⟨hgsB, hcl⟩⟩,
                         redOk_node_iff.mpr ⟨hrr, hrpsib, fun _ => ⟨hcr, hpsibB⟩⟩,
                         fun h => absurd h (by decide)⟩
                have hRbh : bhOk (.node (.node gsib .red gk Nl) .black nk
                    (.node Nr .red pk psib)) = true := by
                  rw [bhOk_node_iff]
                  refine ⟨bhOk_node_iff.mpr ⟨hbhgsib, hbl, by omega⟩,
                          bhOk_node_iff.mpr ⟨hbr, hbhpsib, by omega⟩, ?_⟩
                  simp [bh_red_node]
                  omega
                have hRbheq : bh (.node (.node gsib .red gk Nl) .black nk
                    (.node Nr .red pk psib)) = bh Nl + 1 := by
                  simp [bh]
                  omega
                have hRbst : bst (.node (.node gsib .red gk Nl) .black nk
                    (.node Nr .red pk psib)) (bounds grest).1 (bounds grest).2 = true := by
                  rw [bst_node_iff]
                  exact ⟨loOk_mono hlogk hgknk, hiOk_mono hhipk hnkpk,
                         bst_node_iff.mpr ⟨hlogk, hiOk_some.mpr hgknk, hgs, hNl⟩,
                         bst_node_iff.mpr ⟨loOk_some.mpr hnkpk, hhipk, hNr, hpsib⟩⟩
                exact ⟨plug_red grest _ hprg hRred (fun _ => rfl),
                       plug_bh grest _ (bh Nl + 1) hpbg hRbh hRbheq,
                       plug_bst grest _ hpsg hRbst⟩
          · -- Case_I1 (P and U red)
            have hgr : colorOf gsib = .red := by
              rcases Decidable.em (colorOf gsib = .black) with h | h
              · exact absurd (Or.inr h) hun
              · exact color_eq_red_of_ne_black h
            cases d2 with
            | left =>
              rw [insLoop_eq_I1_left Nl .red nk Nr d pk psib gc gk gsib grest hun]
              cases d with
              | left =>
                simp only [mkNode]
                simp only [bounds] at hbst
                simp [pathBst, bounds, loOk_some, hiOk_some, and_assoc] at hps
                obtain ⟨hlopk, hpkgk, hlogk, hhigk, hpsg, hgs, hpsib⟩ := hps
                simp [pathBhOk, bh_red_node, and_assoc, reduceIte] at hpb
                obtain ⟨hbhpsib, hbhpsibeq, hbhgsib, hbhgsibeq, hpbg⟩ := hpb
                simp [pathRedOk, upColor, and_assoc] at hpr
                obtain ⟨hrpsib, hpsibB, hgc, hrgsib, hgccond, hprg⟩ := hpr
                subst hgc
                simp only [reduceIte] at hpbg
                refine ih grest _ _ gk hlen2 ?_ ?_ ?_ hpsg ?_ hprg
                · rw [redOk_node_iff]
                  exact ⟨redOk_node_iff.mpr ⟨hr, hrpsib, fun h => absurd h (by decide)⟩,
                         redOk_paint_black hrgsib,
                         fun _ => ⟨rfl, colorOf_paint_black gsib⟩⟩
                · rw [bhOk_node_iff]
                  refine ⟨bhOk_node_iff.mpr ⟨hb, hbhpsib, by simp [bh_red_node]; omega⟩,
                          by rw [bhOk_paint]; exact hbhgsib, ?_⟩
                  rw [bh_paint_black_of_red hgr]
                  simp [bh]
                  omega
                · rw [bst_node_iff]
                  exact ⟨hlogk, hhigk,
                         bst_node_iff.mpr ⟨hlopk, hiOk_some.mpr hpkgk, hbst, hpsib⟩,
                         by rw [bst_paint]; exact hgs⟩
                · have hbeq : bh (.node (.node (.node Nl .red nk Nr) .black pk psib)
                      .red gk (paint .black gsib)) = bh Nl + 1 := by
                    simp [bh]
                    omega
                  rw [hbeq]
                  exact hpbg
              | right =>
                simp only [mkNode]
                simp only [bounds] at hbst
                simp [pathBst, bounds, loOk_some, hiOk_some, and_assoc] at hps
                obtain ⟨hlopk, hpkgk, hlogk, hhigk, hpsg, hgs, hpsib⟩ := hps
                simp [pathBhOk, bh_red_node, and_assoc, reduceIte] at hpb
                obtain ⟨hbhpsib, hbhpsibeq, hbhgsib, hbhgsibeq, hpbg⟩ := hpb
                simp [pathRedOk, upColor, and_assoc] at hpr
                obtain ⟨hrpsib, hpsibB, hgc, hrgsib, hgccond, hprg⟩ := hpr
                subst hgc
                simp only [reduceIte] at hpbg
                refine ih grest _ _ gk hlen2 ?_ ?_ ?_ hpsg ?_ hprg
                · rw [redOk_node_iff]
                  exact ⟨redOk_node_iff.mpr ⟨hrpsib, hr, fun h => absurd h (by decide)⟩,
                         redOk_paint_black hrgsib,
                         fun _ => ⟨rfl, colorOf_paint_black gsib⟩⟩
                · rw [bhOk_node_iff]
                  refine ⟨bhOk_node_iff.mpr ⟨hbhpsib, hb, by simp [bh_red_node]; omega⟩,
                          by rw [bhOk_paint]; exact hbhgsib, ?_⟩
                  rw [bh_paint_black_of_red hgr]
                  simp [bh]
                  omega
                · rw [bst_node_iff]
                  exact ⟨hlogk, hhigk,
                         bst_node_iff.mpr ⟨hlopk, hiOk_some.mpr hpkgk, hpsib, hbst⟩,
                         by rw [bst_paint]; exact hgs⟩
                · have hbeq : bh (.node (.node psib .black pk (.node Nl .red nk Nr))
                      .red gk (paint .black gsib)) = bh Nl + 1 := by
                    simp [bh]
                    omega
                  rw [hbeq]
                  exact hpbg
            | right =>
              rw [insLoop_eq_I1_right Nl .red nk Nr d pk psib gc gk gsib grest hun]
              cases d with
              | left =>
                simp only [mkNode]
                simp only [bounds] at hbst
                simp [pathBst, bounds, loOk_some, hiOk_some, and_assoc] at hps
                obtain ⟨hgkpk, hhipk, hlogk, hhigk, hpsg, hgs, hpsib⟩ := hps
                simp [pathBhOk, bh_red_node, and_assoc, reduceIte] at hpb
                obtain ⟨hbhpsib, hbhpsibeq, hbhgsib, hbhgsibeq, hpbg⟩ := hpb
                simp [pathRedOk, upColor, and_assoc] at hpr
                obtain ⟨hrpsib, hpsibB, hgc, hrgsib, hgccond, hprg⟩ := hpr
                subst hgc
                simp only [reduceIte] at hpbg
                refine ih grest _ _ gk hlen2 ?_ ?_ ?_ hpsg ?_ hprg
                · rw [redOk_node_iff]
                  exact ⟨redOk_paint_black hrgsib,
                         redOk_node_iff.mpr ⟨hr, hrpsib, fun h => absurd h (by decide)⟩,
                         fun _ => ⟨colorOf_paint_black gsib, rfl⟩⟩
                · rw [bhOk_node_iff]
                  refine ⟨by rw [bhOk_paint]; exact hbhgsib,
                          bhOk_node_iff.mpr ⟨hb, hbhpsib, by simp [bh_red_node]; omega⟩, ?_⟩
                  rw [bh_paint_black_of_red hgr]
                  simp [bh]
                  omega
                · rw [bst_node_iff]
                  exact ⟨hlogk, hhigk, by rw [bst_paint]; exact hgs,
                         bst_node_iff.mpr ⟨loOk_some.mpr hgkpk, hhipk, hbst, hpsib⟩⟩
                · have hbeq : bh (.node (paint .black gsib) .red gk
                      (.node (.node Nl .red nk Nr) .black pk psib)) = bh Nl + 1 := by
                    simp [bh_red_node, bh_paint_black_of_red hgr]
                    omega
                  rw [hbeq]
                  exact hpbg
              | right =>
                simp only [mkNode]
                simp only [bounds] at hbst
                simp [pathBst, bounds, loOk_some, hiOk_some, and_assoc] at hps
                obtain ⟨hgkpk, hhipk, hlogk, hhigk, hpsg, hgs, hpsib⟩ := hps
                simp [pathBhOk, bh_red_node, and_assoc, reduceIte] at hpb
                obtain ⟨hbhpsib, hbhpsibeq, hbhgsib, hbhgsibeq, hpbg⟩ := hpb
                simp [pathRedOk, upColor, and_assoc] at hpr
                obtain ⟨hrpsib, hpsibB, hgc, hrgsib, hgccond, hprg⟩ := hpr
                subst hgc
                simp only [reduceIte] at hpbg
                refine ih grest _ _ gk hlen2 ?_ ?_ ?_ hpsg ?_ hprg
                · rw [redOk_node_iff]
                  exact ⟨redOk_paint_black hrgsib,
                         redOk_node_iff.mpr ⟨hrpsib, hr, fun h => absurd h (by decide)⟩,
                         fun _ => ⟨colorOf_paint_black gsib, rfl⟩⟩
                · rw [bhOk_node_iff]
                  refine ⟨by rw [bhOk_paint]; exact hbhgsib,
                          bhOk_node_iff.mpr ⟨hbhpsib, hb, by simp [bh_red_node]; omega⟩, ?_⟩
                  rw [bh_paint_black_of_red hgr]
                  simp [bh]
                  omega
                · rw [bst_node_iff]
                  exact ⟨hlogk, hhigk, by rw [bst_paint]; exact hgs,
                         bst_node_iff.mpr ⟨loOk_some.mpr hgkpk, hhipk, hpsib, hbst⟩⟩
                · have hbeq : bh (.node (paint .black gsib) .red gk
                      (.node psib .black pk (.node Nl .red nk Nr))) = bh Nl + 1 := by
                    simp [bh_red_node, bh_paint_black_of_red hgr]
                    omega
                  rw [hbeq]
                  exact hpbg

/-! ## The BST descent produces a well-formed path to an absent slot -/

theorem findSlot_good : ∀ (t : RBNode) (k : Int) (acc : PPath),
    bst t (bounds acc).1 (bounds acc).2 = true →
    bhOk t = true →
    redOk t = true →
    pathBst acc = true →
    pathBhOk acc (bh t) = true →
    pathRedOk acc = true →
    loOk (bounds acc).1 k = true →
    hiOk k (bounds acc).2 = true →
    (upColor acc = .red → colorOf t = .black) →
    pathBst (findSlot t k acc) = true ∧
    pathBhOk (findSlot t k acc) 1 = true ∧
    pathRedOk (findSlot t k acc) = true ∧
    loOk (bounds (findSlot t k acc)).1 k = true ∧
    hiOk k (bounds (findSlot t k acc)).2 = true := by
  intro t
  induction t with
  | nil =>
    intro k acc hbst hbh hred hps hpb hpr hlo hhi hup
    simp only [findSlot]
    exact ⟨hps, by simpa [bh] using hpb, hpr, hlo, hhi⟩
  | node l c j r ihl ihr =>
    intro k acc hbst hbh hred hps hpb hpr hlo hhi hup
    rw [bst_node_iff] at hbst
    obtain ⟨hloj, hhij, hbl, hbrr⟩ := hbst
    obtain ⟨hbhl, hbhr, hbhlr⟩ := bhOk_node_iff.mp hbh
    obtain ⟨hrdl, hrdr, hcc⟩ := redOk_node_iff.mp hred
    have hupb : c = .red → upColor acc = .black := by
      intro hc
      rcases Decidable.em (upColor acc = .red) with h | h
      · have h2 := hup h
        simp only [colorOf] at h2
        rw [hc] at h2
        exact absurd h2 (by decide)
      · exact color_eq_black_of_ne_red h
    simp only [findSlot]
    rcases Decidable.em (k < j) with hkj | hkj
    · rw [if_pos hkj]
      refine ihl k (.cons .left c j r acc) ?_ hbhl hrdl ?_ ?_ ?_ ?_ ?_ ?_
      · simpa [bounds] using hbl
      · simp [pathBst, Bool.and_eq_true]
        exact ⟨⟨⟨hloj, hhij⟩, hps⟩, hbrr⟩
      · simp [pathBhOk, Bool.and_eq_true, beq_iff_eq]
        refine ⟨⟨hbhr, hbhlr.symm⟩, ?_⟩
        have hco : bh l + (if c = .black then 1 else 0) = bh (.node l c j r) := by
          cases c <;> simp [bh_node] <;> omega
        rw [hco]
        exact hpb
      · simp [pathRedOk, Bool.and_eq_true, Bool.or_eq_true, Bool.not_eq_true',
          beq_iff_eq, beq_eq_false_iff_ne]
        refine ⟨⟨hrdr, ?_⟩, hpr⟩
        rcases Decidable.em (c = .red) with hc | hc
        · exact Or.inr ⟨(hcc hc).2, hupb hc⟩
        · exact Or.inl hc
      · simpa [bounds] using hlo
      · simp [bounds, hiOk_some]
        omega
      · intro hu
        simp [upColor] at hu
        exact (hcc hu).1
    · rw [if_neg hkj]
      refine ihr k (.cons .right c j l acc) ?_ hbhr hrdr ?_ ?_ ?_ ?_ ?_ ?_
      · simpa [bounds] using hbrr
      · simp [pathBst, Bool.and_eq_true]
        exact ⟨⟨⟨hloj, hhij⟩, hps⟩, hbl⟩
      · simp [pathBhOk, Bool.and_eq_true, beq_iff_eq]
        refine ⟨⟨hbhl, hbhlr⟩, ?_⟩
        have hco : bh r + (if c = .black then 1 else 0) = bh (.node l c j r) := by
          cases c <;> simp [bh_node] <;> omega
        rw [hco]
        exact hpb
      · simp [pathRedOk, Bool.and_eq_true, Bool.or_eq_true, Bool.not_eq_true',
          beq_iff_eq, beq_eq_false_iff_ne]
        refine ⟨⟨hrdl, ?_⟩, hpr⟩
        rcases Decidable.em (c = .red) with hc | hc
        · exact Or.inr ⟨(hcc hc).1, hupb hc⟩
        · exact Or.inl hc
      · simp [bounds, loOk_some]
        omega
      · simpa [bounds] using hhi
      · intro hu
        simp [upColor] at hu
        exact (hcc hu).2

/-! ## The colour of the tree root seen from a path -/

theorem topColor_findSlot : ∀ (t : RBNode) (k : Int) (acc : PPath),
    (match acc with
     | .root => colorOf t = .black
     | .cons _ _ _ _ _ => topColor acc = .black) →
    topColor (findSlot t k acc) = .black := by
  intro t
  induction t with
  | nil =>
    intro k acc h
    cases acc with
    | root => rfl
    | cons d c j s rest => simpa [findSlot] using h
  | node l c j r ihl ihr =>
    intro k acc h
    have hl : topColor (.cons .left c j r acc) = .black ∧
        topColor (.cons .right c j l acc) = .black := by
      cases acc with
      | root =>
        simp only [colorOf] at h
        exact ⟨by simp [topColor, h], by simp [topColor, h]⟩
      | cons d2 c2 k2 s2 r2 =>
        exact ⟨by simp only [topColor]; exact h, by simp only [topColor]; exact h⟩
    simp only [findSlot]
    rcases Decidable.em (k < j) with hkj | hkj
    · rw [if_pos hkj]
      exact ihl k (.cons .left c j r acc) hl.1
    · rw [if_neg hkj]
      exact ihr k (.cons .right c j l acc) hl.2

/-! ## Agreement of the thing.c loop with the thing.cpp loop -/

theorem rbFix_eq_insLoop : ∀ (n : Nat) (p : PPath) (xl : RBNode) (xc : Color)
    (xk : Int) (xr : RBNode),
    pathLen p ≤ n → topColor p = .black →
    rbFix xl xc xk xr p = some (insLoop xl xc xk xr p) := by
  intro n
  induction n with
  | zero =>
    intro p xl xc xk xr hlen htop
    cases p with
    | root => rfl
    | cons d pc pk psib rest => simp [pathLen] at hlen
  | succ n ih =>
    intro p xl xc xk xr hlen htop
    cases p with
    | root => rfl
    | cons d pc pk psib rest =>
      cases pc with
      | black =>
        rw [insLoop_eq_I3, rbFix.eq_def]
        simp
      | red =>
        cases rest with
        | root => simp [topColor] at htop
        | cons d2 gc gk gsib grest =>
          have hlen2 : pathLen grest ≤ n := by
            simp [pathLen] at hlen
            omega
          have htg : topColor grest = .black := by
            cases grest with
            | root => rfl
            | cons a b c2 d3 e =>
              simp only [topColor] at htop ⊢
              exact htop
          rcases Decidable.em (colorOf gsib = .red) with hgr | hgr
          · have hun : ¬ (gsib = RBNode.nil ∨ colorOf gsib = Color.black) := by
              rintro (h | h)
              · rw [h] at hgr
                exact absurd hgr (by decide)
              · rw [h] at hgr
                exact absurd hgr (by decide)
            cases d2 with
            | left =>
              rw [insLoop_eq_I1_left xl xc xk xr d pk psib gc gk gsib grest hun,
                rbFix.eq_def]
              simp only [reduceCtorEq, reduceIte]
              rw [if_pos hgr]
              exact ih grest _ _ gk _ hlen2 htg
            | right =>
              rw [insLoop_eq_I1_right xl xc xk xr d pk psib gc gk gsib grest hun,
                rbFix.eq_def]
              simp only [reduceCtorEq, reduceIte]
              rw [if_pos hgr]
              exact ih grest _ _ gk _ hlen2 htg
          · have hgb : colorOf gsib = .black := color_eq_black_of_ne_red hgr
            cases d2 with
            | left =>
              rw [insLoop_eq_I45 xl xc xk xr d pk psib .left gc gk gsib grest (Or.inr hgb),
                rbFix.eq_def]
              cases d <;> simp [otherDir, mkNode, paint, rotateDir, hgr]
            | right =>
              rw [insLoop_eq_I45 xl xc xk xr d pk psib .right gc gk gsib grest (Or.inr hgb),
                rbFix.eq_def]
              cases d <;> simp [otherDir, mkNode, paint, rotateDir, hgr]

/-! ## Single-insert preservation and whole-sequence preservation -/

theorem insLoop_findSlot_ok (t : RBNode) (k : Int) (h : rbValid1345 t = true) :
    rbValid1345 (insLoop .nil .red k .nil (findSlot t k .root)) = true := by
  simp only [rbValid1345, Bool.and_eq_true] at h
  obtain ⟨⟨hred, hbh⟩, hbst⟩ := h
  obtain ⟨hps, hpb, hpr, hlo, hhi⟩ :=
    findSlot_good t k .root (by simpa [bounds] using hbst) hbh hred rfl
      (by simp [pathBhOk]) rfl rfl rfl (fun hh => by simp [upColor] at hh)
  obtain ⟨hr2, hb2, hs2⟩ :=
    insLoop_ok (pathLen (findSlot t k .root)) (findSlot t k .root) .nil .nil k
      le_rfl rfl rfl
      (bst_node_iff.mpr ⟨hlo, hhi, rfl, rfl⟩)
      hps hpb hpr
  simp only [rbValid1345, Bool.and_eq_true]
  exact ⟨⟨hr2, hb2⟩, hs2⟩

theorem insert1_valid (t : RBNode) (k : Int) (h : rbValid1345 t = true) :
    rbValid1345 (insert1 t k) = true :=
  insLoop_findSlot_ok t k h

theorem insertAllCpp_aux : ∀ (ks : List Int) (t : RBNode),
    rbValid1345 t = true → rbValid1345 (List.foldl insert1 t ks) = true := by
  intro ks
  induction ks with
  | nil => intro t h; exact h
  | cons k ks ih =>
    intro t h
    exact ih (insert1 t k) (insert1_valid t k h)

theorem insertAllCpp_valid (ks : List Int) : rbValid1345 (insertAllCpp ks) = true :=
  insertAllCpp_aux ks .nil rfl

theorem rbValid1345_paint_black (u : RBNode) (h : rbValid1345 u = true) :
    rbValid1345 (paint .black u) = true := by
  simp only [rbValid1345, Bool.and_eq_true] at h ⊢
  exact ⟨⟨redOk_paint_black h.1.1, by rw [bhOk_paint]; exact h.1.2⟩,
         by rw [bst_paint]; exact h.2⟩

theorem rb_insert_valid (t : RBNode) (k : Int) (h : validate t = true) :
    ∃ r, rb_insert t k = some r ∧ validate r = true := by
  simp only [validate, Bool.and_eq_true, beq_iff_eq] at h
  obtain ⟨hroot, hval⟩ := h
  have htc : topColor (findSlot t k .root) = .black :=
    topColor_findSlot t k .root hroot
  have heq := rbFix_eq_insLoop (pathLen (findSlot t k .root))
    (findSlot t k .root) .nil .red k .nil le_rfl htc
  refine ⟨paint .black (insLoop .nil .red k .nil (findSlot t k .root)), ?_, ?_⟩
  · rw [rb_insert, heq]
    rfl
  · simp only [validate, Bool.and_eq_true, beq_iff_eq]
    exact ⟨colorOf_paint_black _, rbValid1345_paint_black _ (insLoop_findSlot_ok t k hval)⟩

theorem insertAllC_aux : ∀ (ks : List Int) (t : RBNode), validate t = true →
    ∃ r, List.foldl (fun o k => o.bind (fun u => rb_insert u k)) (some t) ks = some r ∧
      validate r = true := by
  intro ks
  induction ks with
  | nil => intro t h; exact ⟨t, rfl, h⟩
  | cons k ks ih =>
    intro t h
    obtain ⟨t1, he, hv⟩ := rb_insert_valid t k h
    have hstep : List.foldl (fun o k => o.bind (fun u => rb_insert u k)) (some t) (k :: ks)
        = List.foldl (fun o k => o.bind (fun u => rb_insert u k)) (some t1) ks := by
      simp [List.foldl, he]
    rw [hstep]
    exact ih t1 hv

theorem insertAllC_valid (ks : List Int) :
    ∃ t, insertAllC ks = some t ∧ validate t = true :=
  insertAllC_aux ks .nil rfl

/-! ## Key multiset and node count: the fixup creates no node -/

theorem keys_plug_congr : ∀ (p : PPath) (x y : RBNode), keys x = keys y →
    keys (plug x p) = keys (plug y p) := by
  intro p
  induction p with
  | root => intro x y h; exact h
  | cons d c k sib rest ih =>
    intro x y h
    cases d <;> exact ih _ _ (by simp [mkNode, keys, h])

theorem keys_plug_len : ∀ (p : PPath) (x : RBNode),
    (keys (plug x p)).length = (keys x).length + pathKeyLen p := by
  intro p
  induction p with
  | root => intro x; simp [plug, pathKeyLen]
  | cons d c k sib rest ih =>
    intro x
    rw [plug, ih]
    cases d <;> simp [mkNode, keys, pathKeyLen] <;> omega

theorem pathKeyLen_findSlot : ∀ (t : RBNode) (k : Int) (acc : PPath),
    pathKeyLen (findSlot t k acc) = (keys t).length + pathKeyLen acc := by
  intro t
  induction t with
  | nil => intro k acc; simp [findSlot, keys]
  | node l c j r ihl ihr =>
    intro k acc
    simp only [findSlot]
    rcases Decidable.em (k < j) with hkj | hkj
    · rw [if_pos hkj, ihl]
      simp [pathKeyLen, keys]
      omega
    · rw [if_neg hkj, ihr]
      simp [pathKeyLen, keys]
      omega

theorem insLoop_keys : ∀ (n : Nat) (p : PPath) (Nl : RBNode) (nc : Color)
    (nk : Int) (Nr : RBNode), pathLen p ≤ n →
    keys (insLoop Nl nc nk Nr p) = keys (plug (.node Nl nc nk Nr) p) := by
  intro n
  induction n with
  | zero =>
    intro p Nl nc nk Nr hlen
    cases p with
    | root => rfl
    | cons d pc pk psib rest => simp [pathLen] at hlen
  | succ n ih =>
    intro p Nl nc nk Nr hlen
    cases p with
    | root => rfl
    | cons d pc pk psib rest =>
      rcases Decidable.em (pc = .black) with hpc | hpc
      · subst hpc
        rw [insLoop_eq_I3]
      · have hpc2 : pc = .red := color_eq_red_of_ne_black hpc
        subst hpc2
        cases rest with
        | root =>
          rw [insLoop_eq_I6]
          cases d <;> simp [plug, mkNode, keys]
        | cons d2 gc gk gsib grest =>
          have hlen2 : pathLen grest ≤ n := by
            simp [pathLen] at hlen
            omega
          have hplugstep : plug (.node Nl nc nk Nr)
              (.cons d .red pk psib (.cons d2 gc gk gsib grest))
              = plug (mkNode d2 (mkNode d (.node Nl nc nk Nr) .red pk psib) gc gk gsib)
                  grest := by
            simp [plug]
          rcases Decidable.em (gsib = RBNode.nil ∨ colorOf gsib = Color.black)
            with hun | hun
          · rw [insLoop_eq_I45 Nl nc nk Nr d pk psib d2 gc gk gsib grest hun, hplugstep]
            apply keys_plug_congr
            cases d2 <;> cases d <;>
              simp [otherDir, mkNode, paint, rotateDir, keys, keys_paint, List.append_assoc]
          · cases d2 with
            | left =>
              rw [insLoop_eq_I1_left Nl nc nk Nr d pk psib gc gk gsib grest hun,
                ih grest _ _ gk _ hlen2, hplugstep]
              apply keys_plug_congr
              cases d <;> simp [mkNode, keys, keys_paint]
            | right =>
              rw [insLoop_eq_I1_right Nl nc nk Nr d pk psib gc gk gsib grest hun,
                ih grest _ _ gk _ hlen2, hplugstep]
              apply keys_plug_congr
              cases d <;> simp [mkNode, keys, keys_paint]

theorem rbFix_some_eq : ∀ (n : Nat) (p : PPath) (xl : RBNode) (xc : Color)
    (xk : Int) (xr : RBNode) (r : RBNode), pathLen p ≤ n →
    rbFix xl xc xk xr p = some r → r = insLoop xl xc xk xr p := by
  intro n
  induction n with
  | zero =>
    intro p xl xc xk xr r hlen h
    cases p with
    | root =>
      simp only [rbFix] at h
      cases h
      rfl
    | cons d pc pk psib rest => simp [pathLen] at hlen
  | succ n ih =>
    intro p xl xc xk xr r hlen h
    cases p with
    | root =>
      simp only [rbFix] at h
      cases h
      rfl
    | cons d pc pk psib rest =>
      cases pc with
      | black =>
        rw [insLoop_eq_I3]
        rw [rbFix.eq_def] at h
        simp at h
        exact h.symm
      | red =>
        cases rest with
        | root =>
          rw [rbFix.eq_def] at h
          simp at h
        | cons d2 gc gk gsib grest =>
          have hlen2 : pathLen grest ≤ n := by
            simp [pathLen] at hlen
            omega
          rcases Decidable.em (colorOf gsib = .red) with hgr | hgr
          · have hun : ¬ (gsib = RBNode.nil ∨ colorOf gsib = Color.black) := by
              rintro (hh | hh)
              · rw [hh] at hgr
                exact absurd hgr (by decide)
              · rw [hh] at hgr
                exact absurd hgr (by decide)
            cases d2 with
            | left =>
              rw [insLoop_eq_I1_left xl xc xk xr d pk psib gc gk gsib grest hun]
              rw [rbFix.eq_def] at h
              simp only [reduceCtorEq, reduceIte] at h
              rw [if_pos hgr] at h
              exact ih grest _ _ gk _ r hlen2 h
            | right =>
              rw [insLoop_eq_I1_right xl xc xk xr d pk psib gc gk gsib grest hun]
              rw [rbFix.eq_def] at h
              simp only [reduceCtorEq, reduceIte] at h
              rw [if_pos hgr] at h
              exact ih grest _ _ gk _ r hlen2 h
          · have hgb : colorOf gsib = .black := color_eq_black_of_ne_red hgr
            cases d2 with
            | left =>
              rw [insLoop_eq_I45 xl xc xk xr d pk psib .left gc gk gsib grest (Or.inr hgb)]
              rw [rbFix.eq_def] at h
              cases d <;> simp [otherDir, mkNode, paint, rotateDir, hgr] at h ⊢ <;>
                exact h.symm
            | right =>
              rw [insLoop_eq_I45 xl xc xk xr d pk psib .right gc gk gsib grest (Or.inr hgb)]
              rw [rbFix.eq_def] at h
              cases d <;> simp [otherDir, mkNode, paint, rotateDir, hgr] at h ⊢ <;>
                exact h.symm

/-! ## Termination of the do-while loop within a fuel bound -/

theorem insLoopF_eq : ∀ (fuel : Nat) (p : PPath) (Nl : RBNode) (nc : Color)
    (nk : Int) (Nr : RBNode), pathLen p < 2 * fuel →
    insLoopF fuel Nl nc nk Nr p = some (insLoop Nl nc nk Nr p) := by
  intro fuel
  induction fuel with
  | zero => intro p Nl nc nk Nr hlen; omega
  | succ fuel ih =>
    intro p Nl nc nk Nr hlen
    cases p with
    | root => rfl
    | cons d pc pk psib rest =>
      rcases Decidable.em (pc = .black) with hpc | hpc
      · subst hpc
        rw [insLoop_eq_I3, insLoopF.eq_def]
        simp
      · have hpc2 : pc = .red := color_eq_red_of_ne_black hpc
        subst hpc2
        cases rest with
        | root =>
          rw [insLoop_eq_I6, insLoopF.eq_def]
          simp
        | cons d2 gc gk gsib grest =>
          have hlen2 : pathLen grest < 2 * fuel := by
            simp [pathLen] at hlen
            omega
          rcases Decidable.em (gsib = RBNode.nil ∨ colorOf gsib = Color.black)
            with hun | hun
          · rw [insLoop_eq_I45 Nl nc nk Nr d pk psib d2 gc gk gsib grest hun,
              insLoopF.eq_def]
            simp only [reduceCtorEq, reduceIte]
            rw [if_pos hun]
          · cases d2 with
            | left =>
              rw [insLoop_eq_I1_left Nl nc nk Nr d pk psib gc gk gsib grest hun,
                insLoopF.eq_def]
              simp only [reduceCtorEq, reduceIte]
              rw [if_neg hun]
              exact ih grest _ _ gk _ hlen2
            | right =>
              rw [insLoop_eq_I1_right Nl nc nk Nr d pk psib gc gk gsib grest hun,
                insLoopF.eq_def]
              simp only [reduceCtorEq, reduceIte]
              rw [if_neg hun]
              exact ih grest _ _ gk _ hlen2

theorem size_insert1 (t : RBNode) (k : Int) : size (insert1 t k) = size t + 1 := by
  unfold insert1 RBinsert1 size
  rw [insLoop_keys (pathLen (findSlot t k PPath.root)) _ _ _ _ _ le_rfl, keys_plug_len,
    pathKeyLen_findSlot]
  simp [keys, pathKeyLen]
  omega

theorem size_rb_insert (t : RBNode) (k : Int) (r : RBNode)
    (h : rb_insert t k = some r) : size r = size t + 1 := by
  simp only [rb_insert] at h
  cases hfix : rbFix RBNode.nil .red k RBNode.nil (findSlot t k PPath.root) with
  | none =>
    rw [hfix] at h
    cases h
  | some u =>
    rw [hfix] at h
    simp only [Option.map, Option.some.injEq] at h
    have hu := rbFix_some_eq (pathLen (findSlot t k PPath.root)) _ _ _ _ _ u le_rfl hfix
    rw [← h, hu]
    unfold size
    rw [keys_paint, insLoop_keys (pathLen (findSlot t k PPath.root)) _ _ _ _ _ le_rfl,
      keys_plug_len, pathKeyLen_findSlot]
    simp [keys, pathKeyLen]
    omega

/-! ## Claims -/

/-- Claim C1, counterexample to the claim as stated: inserting the single
key 1 into an empty tree through `RBinsert1` (`src/thing.cpp`) leaves the
root RED (the `P == NULL` entry returns without blackening), so
`validate()` is false after that completed insert. -/
theorem claim_C1_cex : validate (RBinsert1 PPath.root 1) = false := by decide

/-- Claim C1, amended: for every finite sequence of insertions into an
initially empty tree, `thing.c`'s `rb_insert` (which blackens the root
unconditionally) keeps all five invariants of spec section 3 after every
single insert; `thing.cpp`'s `RBinsert1` keeps invariants 1, 3, 4 and 5
after every single insert, but may leave the root RED, so only the
relaxed check holds for it.  Quantifying over all key lists covers every
prefix of every insertion sequence. -/
theorem claim_C1 :
    (∀ ks : List Int, ∃ t, insertAllC ks = some t ∧ validate t = true) ∧
    (∀ ks : List Int, rbValid1345 (insertAllCpp ks) = true) :=
  ⟨insertAllC_valid, insertAllCpp_valid⟩

/-- Claim C2, counterexample to the claim as stated: `RBinsert1`
(`src/thing.cpp`) ends with a RED root both when inserting into an empty
tree (lines 14-17 return without recolouring) and when the red-uncle loop
ascends until the current node has no parent (`Case_I2` returns without
recolouring, reached here after inserting 1,2,3,4). -/
theorem claim_C2_cex :
    colorOf (RBinsert1 PPath.root 1) ≠ Color.black ∧
    colorOf (insertAllCpp [1, 2, 3, 4]) ≠ Color.black := by decide

/-- Claim C2, amended: after every completed `rb_insert` of `src/thing.c`
the root is BLACK, because of the unconditional final
`T->root->colour = black` — in particular in the empty-tree and
ascent-to-the-root scenarios; `src/thing.cpp` does not guarantee this. -/
theorem claim_C2 : ∀ (t : RBNode) (k : Int) (r : RBNode),
    rb_insert t k = some r → colorOf r = .black := by
  intro t k r h
  simp only [rb_insert] at h
  cases hfix : rbFix RBNode.nil .red k RBNode.nil (findSlot t k PPath.root) with
  | none =>
    rw [hfix] at h
    cases h
  | some u =>
    rw [hfix] at h
    simp only [Option.map, Option.some.injEq] at h
    rw [← h]
    exact colorOf_paint_black u

/-- Claim C2, witness: a concrete successful insert with a BLACK root. -/
theorem claim_C2_w :
    rb_insert RBNode.nil 0 = some (.node RBNode.nil .black 0 RBNode.nil) ∧
    colorOf (.node RBNode.nil Color.black 0 RBNode.nil) = Color.black :=
  ⟨rfl, claim_C2 RBNode.nil 0 _ rfl⟩

/-- Claim C3: the insertion-fixup loop terminates within a fuel bound of
half the depth of the freshly linked node (each firing of the only
looping case, red parent and red uncle, moves the current node two tree
levels higher, on either side of its grandparent), and that looping case
shortens the parent chain by exactly two frames.  The fuel-indexed loop
`insLoopF`, which returns `none` if the iteration count exceeds the fuel,
agrees with the total loop on every input whose depth is below twice the
fuel — no well-formedness of the tree is even needed. -/
theorem claim_C3 :
    (∀ (fuel : Nat) (p : PPath) (Nl : RBNode) (nc : Color) (nk : Int) (Nr : RBNode),
      pathLen p < 2 * fuel → insLoopF fuel Nl nc nk Nr p = some (insLoop Nl nc nk Nr p)) ∧
    (∀ (d : Dir) (pk : Int) (psib : RBNode) (d2 : Dir) (gc : Color) (gk : Int)
      (gsib : RBNode) (grest : PPath),
      pathLen (.cons d .red pk psib (.cons d2 gc gk gsib grest)) = pathLen grest + 2) :=
  ⟨insLoopF_eq, fun d pk psib d2 gc gk gsib grest => by simp [pathLen]⟩

/-- Claim C3, witness: two units of fuel complete an insertion whose
fixup fires the red-uncle case once at depth 2. -/
theorem claim_C3_w :
    insLoopF 2 RBNode.nil .red 0 RBNode.nil
        (.cons .left .red 1 RBNode.nil
          (.cons .left .black 2 (.node RBNode.nil .red 3 RBNode.nil) PPath.root))
      = some (insLoop RBNode.nil .red 0 RBNode.nil
        (.cons .left .red 1 RBNode.nil
          (.cons .left .black 2 (.node RBNode.nil .red 3 RBNode.nil) PPath.root))) :=
  claim_C3.1 2 _ RBNode.nil .red 0 RBNode.nil (by decide)

/-- Claim C4: in the red-parent/red-uncle case the fixup recolours P and
U BLACK and G RED, re-focuses on `N := G`, and re-runs the whole loop
from there (first conjunct: the loop's value is the loop restarted on the
recoloured grandparent subtree two levels higher); and this recolouring
changes no child links — the colour-erased tree around G is unchanged
(second conjunct). -/
theorem claim_C4 : ∀ (Nl Nr psib gsib : RBNode) (nk pk gk : Int) (d d2 : Dir)
    (gc : Color) (grest : PPath), colorOf gsib = .red →
    (insLoop Nl .red nk Nr (.cons d .red pk psib (.cons d2 gc gk gsib grest))
      = insLoopT (mkNode d2 (mkNode d (.node Nl .red nk Nr) .black pk psib) .red gk
          (paint .black gsib)) grest) ∧
    erase (mkNode d2 (mkNode d (.node Nl .red nk Nr) .black pk psib) .red gk
        (paint .black gsib))
      = erase (mkNode d2 (mkNode d (.node Nl .red nk Nr) .red pk psib) gc gk gsib) := by
  intro Nl Nr psib gsib nk pk gk d d2 gc grest hgr
  have hun : ¬ (gsib = RBNode.nil ∨ colorOf gsib = Color.black) := by
    rintro (h | h)
    · rw [h] at hgr
      exact absurd hgr (by decide)
    · rw [h] at hgr
      exact absurd hgr (by decide)
  constructor
  · cases d2 with
    | left =>
      rw [insLoop_eq_I1_left Nl .red nk Nr d pk psib gc gk gsib grest hun]
      simp [mkNode, insLoopT]
    | right =>
      rw [insLoop_eq_I1_right Nl .red nk Nr d pk psib gc gk gsib grest hun]
      simp [mkNode, insLoopT]
  · cases d2 <;> cases d <;> simp [mkNode, erase, erase_paint]

/-- Claim C4, witness: the red-uncle recolouring evaluated on a concrete
grandparent neighbourhood. -/
theorem claim_C4_w :
    (insLoop RBNode.nil .red 1 RBNode.nil
        (.cons .left .red 2 RBNode.nil
          (.cons .left .black 3 (.node RBNode.nil .red 7 RBNode.nil) PPath.root))
      = insLoopT (mkNode .left (mkNode .left (.node RBNode.nil .red 1 RBNode.nil)
          .black 2 RBNode.nil) .red 3
          (paint .black (.node RBNode.nil .red 7 RBNode.nil))) PPath.root) ∧
    erase (mkNode .left (mkNode .left (.node RBNode.nil .red 1 RBNode.nil)
        .black 2 RBNode.nil) .red 3 (paint .black (.node RBNode.nil .red 7 RBNode.nil)))
      = erase (mkNode .left (mkNode .left (.node RBNode.nil .red 1 RBNode.nil)
        .red 2 RBNode.nil) .black 3 (.node RBNode.nil .red 7 RBNode.nil)) :=
  claim_C4 RBNode.nil RBNode.nil RBNode.nil (.node RBNode.nil .red 7 RBNode.nil)
    1 2 3 .left .left .black PPath.root rfl

/-- Claim C5: in the red-parent/black-uncle case with N an inner
grandchild (a zig-zag, stated for both orientations), the fixup first
rotates P away from N's side, re-designates N and P, and then — in the
same iteration, with no re-loop — recolours and rotates the grandparent;
the resulting subtree is the correctly rebalanced one, with the former
current node's key at the top, so the final rotation is never applied to
an inner-grandchild shape. -/
theorem claim_C5 : ∀ (Nl Nr psib gsib : RBNode) (nk pk gk : Int) (gc : Color)
    (grest : PPath), colorOf gsib = .black →
    (insLoop Nl .red nk Nr (.cons .right .red pk psib (.cons .left gc gk gsib grest))
      = plug (.node (.node psib .red pk Nl) .black nk (.node Nr .red gk gsib)) grest) ∧
    (insLoop Nl .red nk Nr (.cons .left .red pk psib (.cons .right gc gk gsib grest))
      = plug (.node (.node gsib .red gk Nl) .black nk (.node Nr .red pk psib)) grest) := by
  intro Nl Nr psib gsib nk pk gk gc grest hgb
  constructor
  · rw [insLoop_eq_I45 Nl .red nk Nr .right pk psib .left gc gk gsib grest (Or.inr hgb)]
    simp [otherDir, mkNode, paint, rotateDir]
  · rw [insLoop_eq_I45 Nl .red nk Nr .left pk psib .right gc gk gsib grest (Or.inr hgb)]
    simp [otherDir, mkNode, paint, rotateDir]

/-- Claim C5, witness: the inner-grandchild double step evaluated on a
concrete zig-zag neighbourhood (the uncle is the BLACK absent leaf). -/
theorem claim_C5_w :
    (insLoop RBNode.nil .red 1 RBNode.nil
        (.cons .right .red 2 RBNode.nil (.cons .left .black 3 RBNode.nil PPath.root))
      = plug (.node (.node RBNode.nil .red 2 RBNode.nil) .black 1
          (.node RBNode.nil .red 3 RBNode.nil)) PPath.root) ∧
    (insLoop RBNode.nil .red 1 RBNode.nil
        (.cons .left .red 2 RBNode.nil (.cons .right .black 3 RBNode.nil PPath.root))
      = plug (.node (.node RBNode.nil .red 3 RBNode.nil) .black 1
          (.node RBNode.nil .red 2 RBNode.nil)) PPath.root) :=
  claim_C5 RBNode.nil RBNode.nil RBNode.nil RBNode.nil 1 2 3 .black PPath.root rfl

/-- Claim C6, counterexample to the claim as stated: inserting 1..7 in
order into an empty tree yields a final root holding key 2, not 4, for
both `thing.cpp`'s and `thing.c`'s insertion. -/
theorem claim_C6_cex :
    rootKeyOf (insertAllCpp [1, 2, 3, 4, 5, 6, 7]) ≠ some 4 ∧
    (insertAllC [1, 2, 3, 4, 5, 6, 7]).map rootKeyOf ≠ some (some 4) := by decide

/-- Claim C6, amended: inserting 1,2,3,4,5,6,7 in order into an empty
tree yields a final tree whose root holds key 2 (not 4) and is BLACK,
with black-height exactly 3 (counting the BLACK nodes on a root-to-leaf
path, the absent leaf included) and no RED node with a RED child; with
`thing.c`'s `rb_insert`, `validate()` is true after each of the 7
insertions, while with `thing.cpp`'s `RBinsert1` it is false after
inserts 1, 4 and 5 (RED root) and true after inserts 2, 3, 6 and 7. -/
theorem claim_C6 :
    validO (insertAllC [1]) = true ∧
    validO (insertAllC [1, 2]) = true ∧
    validO (insertAllC [1, 2, 3]) = true ∧
    validO (insertAllC [1, 2, 3, 4]) = true ∧
    validO (insertAllC [1, 2, 3, 4, 5]) = true ∧
    validO (insertAllC [1, 2, 3, 4, 5, 6]) = true ∧
    validO (insertAllC [1, 2, 3, 4, 5, 6, 7]) = true ∧
    (insertAllC [1, 2, 3, 4, 5, 6, 7]).map rootKeyOf = some (some 2) ∧
    (insertAllC [1, 2, 3, 4, 5, 6, 7]).map colorOf = some .black ∧
    (insertAllC [1, 2, 3, 4, 5, 6, 7]).map bh = some 3 ∧
    (insertAllC [1, 2, 3, 4, 5, 6, 7]).map redOk = some true ∧
    validate (insertAllCpp [1]) = false ∧
    validate (insertAllCpp [1, 2]) = true ∧
    validate (insertAllCpp [1, 2, 3]) = true ∧
    validate (insertAllCpp [1, 2, 3, 4]) = false ∧
    validate (insertAllCpp [1, 2, 3, 4, 5]) = false ∧
    validate (insertAllCpp [1, 2, 3, 4, 5, 6]) = true ∧
    validate (insertAllCpp [1, 2, 3, 4, 5, 6, 7]) = true ∧
    rootKeyOf (insertAllCpp [1, 2, 3, 4, 5, 6, 7]) = some 2 ∧
    colorOf (insertAllCpp [1, 2, 3, 4, 5, 6, 7]) = .black ∧
    bh (insertAllCpp [1, 2, 3, 4, 5, 6, 7]) = 3 ∧
    redOk (insertAllCpp [1, 2, 3, 4, 5, 6, 7]) = true := by decide

/-- Claim C7: every insert creates its new node RED with both children
absent — if the tree was empty it becomes the root with no parent (first
conjunct, the `P == NULL` path of `RBinsert1`); the fixup loop never
creates or destroys a node (second conjunct: it preserves the node count
of the tree it started from, for every focused subtree and parent chain);
and consequently one insert grows the node count by exactly one, both for
`thing.cpp`'s `insert` (third conjunct) and for `thing.c`'s `rb_insert`
(fourth conjunct). -/
theorem claim_C7 :
    (∀ nk : Int, RBinsert1 PPath.root nk = .node RBNode.nil .red nk RBNode.nil) ∧
    (∀ (x : RBNode) (p : PPath), size (insLoopT x p) = size (plug x p)) ∧
    (∀ (t : RBNode) (k : Int), size (insert1 t k) = size t + 1) ∧
    (∀ (t : RBNode) (k : Int) (r : RBNode), rb_insert t k = some r →
      size r = size t + 1) := by
  refine ⟨fun nk => rfl, ?_, size_insert1, size_rb_insert⟩
  intro x p
  cases x with
  | nil => rfl
  | node l c k r =>
    unfold insLoopT size
    rw [insLoop_keys (pathLen p) p l c k r le_rfl]

/-- Claim C7, witness: a concrete `rb_insert` growing the node count by
one. -/
theorem claim_C7_w :
    size (.node RBNode.nil Color.black 5 RBNode.nil) = size RBNode.nil + 1 :=
  claim_C7.2.2.2 RBNode.nil 5 _ rfl

/-- Claim C8: when the parent of the current node is BLACK the fixup
returns at once, for both implementations: the resulting tree is exactly
the original tree with the current node plugged into its slot, every
other colour and link untouched; the sibling, the frames above (and hence
any uncle) are arbitrary and never examined, so this check precedes any
red-uncle/black-uncle distinction. -/
theorem claim_C8 : ∀ (Nl Nr psib : RBNode) (nc : Color) (nk pk : Int) (d : Dir)
    (rest : PPath),
    insLoop Nl nc nk Nr (.cons d .black pk psib rest)
      = plug (.node Nl nc nk Nr) (.cons d .black pk psib rest) ∧
    rbFix Nl nc nk Nr (.cons d .black pk psib rest)
      = some (plug (.node Nl nc nk Nr) (.cons d .black pk psib rest)) := by
  intro Nl Nr psib nc nk pk d rest
  refine ⟨insLoop_eq_I3 Nl nc nk Nr d pk psib rest, ?_⟩
  rw [rbFix.eq_def]
  simp

/-- Claim C9: on a state whose uncle slot is absent (new RED node under a
RED left-child parent whose grandparent has no right child),
`src/thing.c`'s fixup read `y = x->parent->parent->right; y->colour`
dereferences the absence marker under the null-marker representation
(first conjunct: the run is undefined), while under the materialized
BLACK-sentinel representation the same code runs to completion (second
conjunct); `src/thing.cpp` handles the same state totally because its
uncle check `(U == NIL) || U->color == BLACK` treats a NIL uncle as black
before any colour read (third conjunct); the last two conjuncts record
the two representations of the absent child's colour. -/
theorem claim_C9 :
    rbFixNullRep RBNode.nil .red 1 RBNode.nil
        (.cons .left .red 5 RBNode.nil (.cons .left .black 10 RBNode.nil PPath.root))
      = none ∧
    rbFix RBNode.nil .red 1 RBNode.nil
        (.cons .left .red 5 RBNode.nil (.cons .left .black 10 RBNode.nil PPath.root))
      = some (.node (.node RBNode.nil .red 1 RBNode.nil) .black 5
          (.node RBNode.nil .red 10 RBNode.nil)) ∧
    insLoop RBNode.nil .red 1 RBNode.nil
        (.cons .left .red 5 RBNode.nil (.cons .left .black 10 RBNode.nil PPath.root))
      = .node (.node RBNode.nil .red 1 RBNode.nil) .black 5
          (.node RBNode.nil .red 10 RBNode.nil) ∧
    colourReadNull RBNode.nil = none ∧
    colorOf RBNode.nil = .black := by decide

/-- Claim C10: `RBinsert1` stores the new node as `P->child[dir]`
unconditionally — the keys reachable after the call are those of the
parent chain plus the new key, independent of whatever subtree `old`
occupied the slot before the call (first conjunct); on a concrete
pre-state whose designated slot holds a node with key 5, that key is
reachable before the call and unreachable after inserting key 7 there
(second and third conjuncts) — so correct use requires the slot to be
absent at call time. -/
theorem claim_C10 :
    (∀ (p : PPath) (old : RBNode) (nk : Int),
      keys (RBinsert1at p old nk) = keys (plug (.node RBNode.nil .red nk RBNode.nil) p)) ∧
    keys (plug (.node RBNode.nil .red 5 RBNode.nil)
        (.cons .left .black 10 RBNode.nil PPath.root)) = [5, 10] ∧
    keys (RBinsert1at (.cons .left .black 10 RBNode.nil PPath.root)
        (.node RBNode.nil .red 5 RBNode.nil) 7) = [7, 10] := by
  refine ⟨?_, by decide, by decide⟩
  intro p old nk
  unfold RBinsert1at RBinsert1
  exact insLoop_keys (pathLen p) p RBNode.nil .red nk RBNode.nil le_rfl
